import Mathlib

/-!
Shallow embedding of the job-control core of `src/tsh.c` (a tiny shell with
job control) and proofs about the claims of its specification.

Conventions of the embedding:
* the fixed-size array `struct job_t jobs[MAXJOBS]` is a `List Job`
  (reachable tables always have length `MAXJOBS`);
* C `pid_t`/`int` values are `Int` (overflow never matters here: the program
  only stores pids handed to it and job ids in `1..MAXJOBS`);
* a C function that mutates through a pointer returned by a lookup is
  embedded as a function that rewrites the first matching slot, which is
  exactly the slot the pointer refers to;
* console output from the handlers and from `do_bgfg` is modelled as
  structured values (`Notice`, `BgfgOut`), one constructor per distinct
  `printf` format string in the source;
* the signal-mask and errno system calls performed by the handlers are
  modelled as event traces (`SysEvent`).
-/

namespace Tsh

/-- `MAXJOBS` from tsh.c: max jobs at any point in time. -/
def MAXJOBS : Nat := 16

/-- Job states `UNDEF`, `FG`, `BG`, `ST` from tsh.c. -/
inductive JState where
  | undef
  | fg
  | bg
  | st
deriving DecidableEq

/-- `struct job_t`. -/
structure Job where
  pid : Int
  jid : Int
  state : JState
  cmdline : String
deriving DecidableEq

/-- `clearjob`: the cleared slot value (pid 0, jid 0, UNDEF, empty line). -/
def clearedJob : Job := { pid := 0, jid := 0, state := JState.undef, cmdline := "" }

/-- `initjobs`: clear all `MAXJOBS` slots. -/
def initjobs : List Job := List.replicate MAXJOBS clearedJob

/-- The `taken` test inside `freejid`: some slot holds job id `k` (a slot
counts only when its jid is nonzero, as in the C loop). -/
def jidTaken (t : List Job) (k : Int) : Bool :=
  t.any (fun j => j.jid != 0 && j.jid == k)

/-- The search loop of `freejid`: try candidate ids `k, k+1, ...` while
`k ≤ MAXJOBS`, returning 0 when the range is exhausted.  The C loop
`for (i = 1; i <= MAXJOBS; i++)` is bounded, so the embedding carries the
loop bound as structural fuel. -/
def freeSearch (t : List Job) : Nat → Nat → Int
  | 0, _ => 0
  | fuel + 1, k =>
    if k ≤ MAXJOBS then
      if jidTaken t (k : Int) then freeSearch t fuel (k + 1) else (k : Int)
    else 0

/-- `freejid`: smallest free job id in `1..MAXJOBS`, or 0 if none. -/
def freejid (t : List Job) : Int := freeSearch t (MAXJOBS + 1) 1

/-- The slot-filling loop of `addjob`: occupy the first slot with pid 0. -/
def fillFirstFree (nj : Job) : List Job → List Job × Bool
  | [] => ([], false)
  | j :: rest =>
    if j.pid == 0 then (nj :: rest, true)
    else
      let r := fillFirstFree nj rest
      (j :: r.1, r.2)

/-- `addjob jobs pid state cmdline`: returns the updated table and the
success flag (C returns 1/0). -/
def addjob (t : List Job) (pid : Int) (s : JState) (cmdline : String) :
    List Job × Bool :=
  if pid < 1 then (t, false)
  else
    let free := freejid t
    if free = 0 then (t, false)
    else fillFirstFree { pid := pid, jid := free, state := s, cmdline := cmdline } t

/-- The scan loop of `deletejob`: clear the first slot whose pid matches. -/
def clearFirstPid (p : Int) : List Job → List Job × Bool
  | [] => ([], false)
  | j :: rest =>
    if j.pid == p then (clearedJob :: rest, true)
    else
      let r := clearFirstPid p rest
      (j :: r.1, r.2)

/-- `deletejob`: delete the job whose pid is `p`; returns table and found flag. -/
def deletejob (t : List Job) (p : Int) : List Job × Bool :=
  if p < 1 then (t, false) else clearFirstPid p t

/-- `fgpid`: pid of the first slot in FG state, 0 if none. -/
def fgpid : List Job → Int
  | [] => 0
  | j :: rest => if j.state == JState.fg then j.pid else fgpid rest

/-- The scan loop of `getjobpid`. -/
def findPid (p : Int) : List Job → Option Job
  | [] => none
  | j :: rest => if j.pid == p then some j else findPid p rest

/-- `getjobpid`: find a job by pid (NULL for non-positive pid). -/
def getjobpid (t : List Job) (p : Int) : Option Job :=
  if p < 1 then none else findPid p t

/-- The scan loop of `getjobjid`. -/
def findJid (k : Int) : List Job → Option Job
  | [] => none
  | j :: rest => if j.jid == k then some j else findJid k rest

/-- `getjobjid`: find a job by jid (NULL for non-positive jid). -/
def getjobjid (t : List Job) (k : Int) : Option Job :=
  if k < 1 then none else findJid k t

/-- The scan loop of `pid2jid`. -/
def pid2jidScan (p : Int) : List Job → Int
  | [] => 0
  | j :: rest => if j.pid == p then j.jid else pid2jidScan p rest

/-- `pid2jid`: map pid to jid, 0 when the pid is non-positive or absent.
(The C function reads the global `jobs`; the table is an explicit argument
here, as for the other helpers.) -/
def pid2jid (t : List Job) (p : Int) : Int :=
  if p < 1 then 0 else pid2jidScan p t

/-- `job->state = s` where `job = getjobpid(jobs, p)` succeeded: the pointer
refers to the first slot whose pid is `p`, so that slot is rewritten. -/
def setStateFirstPid (p : Int) (s : JState) : List Job → List Job
  | [] => []
  | j :: rest =>
    if j.pid == p then { j with state := s } :: rest
    else j :: setStateFirstPid p s rest

/-- `job->state = s` where `job = getjobjid(jobs, k)` succeeded. -/
def setStateFirstJid (k : Int) (s : JState) : List Job → List Job
  | [] => []
  | j :: rest =>
    if j.jid == k then { j with state := s } :: rest
    else j :: setStateFirstJid k s rest

/-- `job = getjobpid(jobs, p); if (job != NULL) job->state = s;` including
the NULL guard of `getjobpid` for non-positive pids. -/
def setJobStateByPid (t : List Job) (p : Int) (s : JState) : List Job :=
  if p < 1 then t else setStateFirstPid p s t

/-- Position of the first slot whose pid is `p` (the pointer `&jobs[i]`
behind a successful `getjobpid`). -/
def findIdxPid (p : Int) : List Job → Option Nat
  | [] => none
  | j :: rest =>
    if j.pid == p then some 0
    else (findIdxPid p rest).map (fun n => n + 1)

/-- Read the jid stored at slot `i` (what `job->jid` yields when the pointer
is dereferenced again after the table changed). -/
def jidAt (t : List Job) (i : Nat) : Int := (t.getD i clearedJob).jid

/-- Status reported by `waitpid` for one reaped child. -/
inductive WStatus where
  | exited (code : Int)
  | signaled (sig : Int)
  | stopped (sig : Int)
  | continued
deriving DecidableEq

/-- Console notices of `sigchld_handler`, one constructor per format string. -/
inductive Notice where
  | exitedMsg (jid : Int) (pid : Int) (code : Int)
  | termSignalMsg (jid : Int) (pid : Int) (sig : Int)
  | stoppedMsg (jid : Int) (pid : Int) (sig : Int)
  | continuedMsg (jid : Int) (pid : Int)
  | noJobFoundMsg (pid : Int)
deriving DecidableEq

/-- One iteration of the `sigchld_handler` reap loop, for a reaped `(p, w)`.
In the `WIFEXITED` branch the source calls `deletejob` first and only then
reads `job->jid` for the printf, so the jid in the notice is read from the
already-cleared slot; the embedding reads it back through the slot index the
pointer refers to. -/
def chldStep (t : List Job) (p : Int) (w : WStatus) : List Job × List Notice :=
  match getjobpid t p with
  | none => (t, [Notice.noJobFoundMsg p])
  | some job =>
    match w with
    | WStatus.exited code =>
      let t1 := (deletejob t p).1
      let jidNow :=
        match findIdxPid p t with
        | some i => jidAt t1 i
        | none => job.jid
      (t1, [Notice.exitedMsg jidNow p code])
    | WStatus.signaled sg =>
      ((deletejob t p).1, [Notice.termSignalMsg job.jid p sg])
    | WStatus.stopped sg =>
      (setJobStateByPid t p JState.st, [Notice.stoppedMsg job.jid p sg])
    | WStatus.continued =>
      (setJobStateByPid t p JState.bg, [Notice.continuedMsg job.jid p])

/-- The whole reap loop of `sigchld_handler` over the list of `(pid, status)`
pairs successively returned by `waitpid(-1, ..., WNOHANG|WUNTRACED|WCONTINUED)`. -/
def sigchldLoop (t : List Job) : List (Int × WStatus) → List Job × List Notice
  | [] => (t, [])
  | (p, w) :: rest =>
    let r1 := chldStep t p w
    let r2 := sigchldLoop r1.1 rest
    (r2.1, r1.2 ++ r2.2)

/-- Signals sent with `kill` in the embedded fragment. -/
inductive Sig where
  | sigIntS
  | sigTstpS
  | sigContS
deriving DecidableEq

/-- System-call events performed by a handler body, in program order. -/
inductive SysEvent where
  | saveErrno
  | blockAll
  | restoreMask
  | restoreErrno
  | kill (target : Int) (sig : Sig)
deriving DecidableEq

/-- `sigchld_handler`: saves errno, blocks the full signal set saving the
previous mask, drains the reap loop, restores the mask, restores errno. -/
def sigchldRun (t : List Job) (reaps : List (Int × WStatus)) :
    (List Job × List Notice) × List SysEvent :=
  (sigchldLoop t reaps,
   [SysEvent.saveErrno, SysEvent.blockAll, SysEvent.restoreMask, SysEvent.restoreErrno])

/-- `sigint_handler`: saves errno, sends SIGINT to `-fgpid` when a foreground
job exists, restores errno.  It performs no job-table mutation and no
signal-mask manipulation. -/
def sigintRun (t : List Job) : List Job × List SysEvent :=
  let fg_pid := fgpid t
  (t,
   [SysEvent.saveErrno] ++
     (if fg_pid != 0 then [SysEvent.kill (-fg_pid) Sig.sigIntS] else []) ++
     [SysEvent.restoreErrno])

/-- The job-table mutation of `sigtstp_handler`: when a foreground job
exists, look its pid up again and mark that slot stopped. -/
def sigtstpMut (t : List Job) : List Job :=
  let fg_pid := fgpid t
  if fg_pid != 0 then setJobStateByPid t fg_pid JState.st else t

/-- `sigtstp_handler`: saves errno, sends SIGTSTP to `-fgpid` when a
foreground job exists and marks that job stopped, restores errno.  No
signal-mask manipulation. -/
def sigtstpRun (t : List Job) : List Job × List SysEvent :=
  let fg_pid := fgpid t
  if fg_pid != 0 then
    (setJobStateByPid t fg_pid JState.st,
     [SysEvent.saveErrno, SysEvent.kill (-fg_pid) Sig.sigTstpS, SysEvent.restoreErrno])
  else (t, [SysEvent.saveErrno, SysEvent.restoreErrno])

/-- C `isspace` on the characters that matter to `atoi`. -/
def isSpaceC (c : Char) : Bool :=
  c == ' ' || c == '\t' || c == '\n' || c == '\r' || c == '\x0b' || c == '\x0c'

/-- Value of a maximal leading digit run (the accumulation loop of `atoi`). -/
def digitsVal : List Char → Nat → Nat
  | c :: rest, acc =>
    if c.isDigit then digitsVal rest (10 * acc + (c.toNat - 48)) else acc
  | [], acc => acc

/-- C `atoi` on a character list: skip whitespace, optional sign, maximal
digit run, 0 when no digits (overflow is outside tsh's reachable inputs). -/
def atoi (s : List Char) : Int :=
  match s.dropWhile isSpaceC with
  | '-' :: rest => -(digitsVal rest 0 : Int)
  | '+' :: rest => (digitsVal rest 0 : Int)
  | rest => (digitsVal rest 0 : Int)

/-- Console outputs of `do_bgfg`, one constructor per distinct format string,
plus the two success shapes (`bg` prints the background notice, `fg` enters
`waitfg`) and the impossible fall-through. -/
inductive BgfgOut where
  | needArgMsg (cmd : String)
  | notPosJidMsg (cmd : String)
  | notPosPidMsg (cmd : String)
  | noSuchJobMsg (arg : String)
  | noSuchProcessMsg (pid : Int)
  | ranBg (jid : Int) (pid : Int) (cmdline : String)
  | ranFg (pid : Int)
  | ranNone (pid : Int)
deriving DecidableEq

/-- Tail of `do_bgfg` after the job was resolved: send SIGCONT to the group,
then retag the job through the pointer that resolved it (`byJid` records
whether the pointer came from `getjobjid` or `getjobpid`, `key` its key). -/
def bgfgFinish (t : List Job) (cmd : String) (job : Job) (byJid : Bool) (key : Int) :
    List Job × BgfgOut :=
  if cmd == "bg" then
    (if byJid then setStateFirstJid key JState.bg t else setStateFirstPid key JState.bg t,
     BgfgOut.ranBg job.jid job.pid job.cmdline)
  else if cmd == "fg" then
    (if byJid then setStateFirstJid key JState.fg t else setStateFirstPid key JState.fg t,
     BgfgOut.ranFg job.pid)
  else (t, BgfgOut.ranNone job.pid)

/-- `do_bgfg argv`: `cmd` is `argv[0]`, `arg?` is `argv[1]` (`none` when the
argument is missing).  `argv[1][0] == '%''` is `head? == some '%'` (an empty
C string has `argv[1][0] == '\0'`, which is not `'%'`). -/
def do_bgfg (t : List Job) (cmd : String) (arg? : Option String) : List Job × BgfgOut :=
  match arg? with
  | none => (t, BgfgOut.needArgMsg cmd)
  | some arg =>
    if arg.data.head? == some '%' then
      let jid := atoi arg.data.tail
      if jid ≤ 0 then (t, BgfgOut.notPosJidMsg cmd)
      else
        match getjobjid t jid with
        | none => (t, BgfgOut.noSuchJobMsg arg)
        | some job => bgfgFinish t cmd job true jid
    else
      let p := atoi arg.data
      if p ≤ 0 then (t, BgfgOut.notPosPidMsg cmd)
      else
        match getjobpid t p with
        | none => (t, BgfgOut.noSuchProcessMsg p)
        | some job => bgfgFinish t cmd job false p

/-- The terminal effect of one `waitfg pid` invocation on the table: the
loop exits after the kernel reports the child stopped (slot retagged ST),
signaled or exited (slot deleted); when the job is no longer in the table
the function returns without touching it.  `waitpid(pid, ..., WUNTRACED)`
never reports a continue, so `continued` is not a terminal status. -/
def waitfgExit (t : List Job) (p : Int) (w : WStatus) : List Job :=
  match getjobpid t p with
  | none => t
  | some _ =>
    match w with
    | WStatus.stopped _ => setJobStateByPid t p JState.st
    | WStatus.signaled _ => (deletejob t p).1
    | WStatus.exited _ => (deletejob t p).1
    | WStatus.continued => t

/-- Control position of the shell's single thread: at the prompt loop, or
blocked in `waitfg p`. -/
inductive Phase where
  | prompt
  | waiting (p : Int)
deriving DecidableEq

/-- Shell state for the job-table transition system. -/
structure ShellState where
  jobs : List Job
  phase : Phase
deriving DecidableEq

/-- Phase after `do_bgfg` returns: the `fg` success path enters `waitfg`
on the resolved pid; every other path returns to the prompt. -/
def bgfgPhase : BgfgOut → Phase
  | BgfgOut.ranFg p => Phase.waiting p
  | _ => Phase.prompt

/-- States of the job table reachable through the supervisor's operations.
`eval` registers a freshly forked child from the prompt (the kernel never
hands out the pid of a live tracked child, which is the freshness side
condition), then either returns directly (background) or blocks in `waitfg`;
`do_bgfg` runs from the prompt and its `fg` path blocks in `waitfg`; the
handler mutations (`sigchld_handler` reap steps, `sigtstp_handler`,
`sigint_handler`) can interrupt at any phase; `waitfg` finishes through one
of its terminal branches. -/
inductive Reach : ShellState → Prop where
  | init : Reach { jobs := initjobs, phase := Phase.prompt }
  | launchBg (t : List Job) (p : Int) (c : String) :
      Reach { jobs := t, phase := Phase.prompt } → 1 ≤ p → (∀ j ∈ t, j.pid ≠ p) →
      Reach { jobs := (addjob t p JState.bg c).1, phase := Phase.prompt }
  | launchFg (t : List Job) (p : Int) (c : String) :
      Reach { jobs := t, phase := Phase.prompt } → 1 ≤ p → (∀ j ∈ t, j.pid ≠ p) →
      Reach { jobs := (addjob t p JState.fg c).1, phase := Phase.waiting p }
  | bgfg (t : List Job) (cmd : String) (arg? : Option String) :
      Reach { jobs := t, phase := Phase.prompt } →
      Reach { jobs := (do_bgfg t cmd arg?).1, phase := bgfgPhase (do_bgfg t cmd arg?).2 }
  | chld (t : List Job) (ph : Phase) (p : Int) (w : WStatus) :
      Reach { jobs := t, phase := ph } →
      Reach { jobs := (chldStep t p w).1, phase := ph }
  | tstp (t : List Job) (ph : Phase) :
      Reach { jobs := t, phase := ph } →
      Reach { jobs := sigtstpMut t, phase := ph }
  | intr (t : List Job) (ph : Phase) :
      Reach { jobs := t, phase := ph } →
      Reach { jobs := (sigintRun t).1, phase := ph }
  | waitDone (t : List Job) (p : Int) (w : WStatus) :
      Reach { jobs := t, phase := Phase.waiting p } → w ≠ WStatus.continued →
      Reach { jobs := waitfgExit t p w, phase := Phase.prompt }

/-- Every slot has a non-negative pid, and a slot is free (pid 0) exactly
when its jid is unassigned (jid 0). -/
def WFpids (t : List Job) : Prop :=
  ∀ j ∈ t, 0 ≤ j.pid ∧ (j.pid = 0 ↔ j.jid = 0)

/-- No two live slots share a pid. -/
def PidsDistinct (t : List Job) : Prop :=
  t.Pairwise (fun a b => a.pid ≠ 0 → b.pid ≠ 0 → a.pid ≠ b.pid)

/-- No two slots with assigned jids share a jid. -/
def JidsDistinct (t : List Job) : Prop :=
  t.Pairwise (fun a b => a.jid ≠ 0 → b.jid ≠ 0 → a.jid ≠ b.jid)

/-- No slot is in FG state. -/
def NoFG (t : List Job) : Prop := ∀ j ∈ t, j.state ≠ JState.fg

/-- Every FG slot has pid `p`. -/
def FGonly (t : List Job) (p : Int) : Prop :=
  ∀ j ∈ t, j.state = JState.fg → j.pid = p

/-- Number of slots in FG state. -/
def fgCount (t : List Job) : Nat :=
  (t.filter (fun j => j.state == JState.fg)).length

/-- Invariant carried through `Reach`: well-formed pids, distinct live pids,
and no FG slot at the prompt / only the awaited pid's slot FG while waiting. -/
def Inv2 : ShellState → Prop
  | { jobs := t, phase := Phase.prompt } => WFpids t ∧ PidsDistinct t ∧ NoFG t
  | { jobs := t, phase := Phase.waiting p } =>
      WFpids t ∧ PidsDistinct t ∧ 1 ≤ p ∧ FGonly t p

/-- A register (`addjob`) or remove (`deletejob`) operation on the table. -/
inductive TableOp where
  | reg (pid : Int) (s : JState) (cmdline : String)
  | rem (pid : Int)

/-- Apply one table operation. -/
def applyOp (t : List Job) : TableOp → List Job
  | TableOp.reg p s c => (addjob t p s c).1
  | TableOp.rem p => (deletejob t p).1

/-- Run a sequence of register/remove operations. -/
def runOps (t : List Job) (ops : List TableOp) : List Job :=
  ops.foldl applyOp t

/-- A run of register/remove operations in which every registered pid is
fresh: it is not the pid of any live job at the moment of registration
(which is what `fork` guarantees for the pids the shell registers). -/
inductive FreshRun : List Job → List TableOp → List Job → Prop where
  | nil (t : List Job) : FreshRun t [] t
  | reg (t u : List Job) (p : Int) (s : JState) (c : String) (ops : List TableOp) :
      (∀ j ∈ t, j.pid ≠ p) →
      FreshRun (applyOp t (TableOp.reg p s c)) ops u →
      FreshRun t (TableOp.reg p s c :: ops) u
  | rem (t u : List Job) (p : Int) (ops : List TableOp) :
      FreshRun (applyOp t (TableOp.rem p)) ops u →
      FreshRun t (TableOp.rem p :: ops) u

/-- `freejid t` is the smallest positive integer not assigned to a live job. -/
def SmallestUnused (t : List Job) : Prop :=
  1 ≤ freejid t ∧
  (∀ j ∈ t, j.pid ≠ 0 → j.jid ≠ freejid t) ∧
  (∀ m : Int, 1 ≤ m → m < freejid t → ∃ j ∈ t, j.pid ≠ 0 ∧ j.jid = m)

/-- At most one slot is in FG state. -/
def AtMostOneFG (t : List Job) : Prop := fgCount t ≤ 1

/-- Concrete table: one live background job, pid 7, jid 1. -/
def oneJobT : List Job :=
  { pid := 7, jid := 1, state := JState.bg, cmdline := "x" } :: List.replicate 15 clearedJob

/-- Concrete table: one live foreground job, pid 5, jid 1. -/
def oneFgT : List Job :=
  { pid := 5, jid := 1, state := JState.fg, cmdline := "x" } :: List.replicate 15 clearedJob

/-- Concrete table with two FG slots holding different pids (not reachable
by the supervisor, which keeps at most one FG slot). -/
def twoFgT : List Job :=
  { pid := 5, jid := 1, state := JState.fg, cmdline := "" } ::
  { pid := 7, jid := 2, state := JState.fg, cmdline := "" } :: List.replicate 14 clearedJob

/-- Concrete table in which all 16 job ids are assigned. -/
def fullT : List Job :=
  (List.range MAXJOBS).map fun n =>
    { pid := (n : Int) + 1, jid := (n : Int) + 1, state := JState.bg, cmdline := "" }

/-! ### Basic lemmas about the table scans -/

theorem beqT {a b : Int} (h : a = b) : (a == b) = true := beq_iff_eq.mpr h

theorem beqF {a b : Int} (h : ¬ a = b) : ¬((a == b) = true) := by simp [h]

theorem findPid_eq_some {p : Int} {j : Job} :
    ∀ {t : List Job}, findPid p t = some j → j ∈ t ∧ j.pid = p := by
  intro t
  induction t with
  | nil => intro h; cases h
  | cons a rest ih =>
    intro h
    rw [findPid] at h
    by_cases hpa : a.pid = p
    · rw [if_pos (beqT hpa)] at h
      cases h
      exact ⟨List.mem_cons_self j rest, hpa⟩
    · rw [if_neg (beqF hpa)] at h
      rcases ih h with ⟨hmem, hpid⟩
      exact ⟨List.mem_cons_of_mem a hmem, hpid⟩

theorem findPid_eq_none {p : Int} :
    ∀ {t : List Job}, findPid p t = none → ∀ j ∈ t, j.pid ≠ p := by
  intro t
  induction t with
  | nil => intro _ j hj; cases hj
  | cons a rest ih =>
    intro h j hj
    rw [findPid] at h
    by_cases hpa : a.pid = p
    · rw [if_pos (beqT hpa)] at h; cases h
    · rw [if_neg (beqF hpa)] at h
      rcases List.mem_cons.mp hj with rfl | hj2
      · exact hpa
      · exact ih h j hj2

theorem findJid_eq_some {k : Int} {j : Job} :
    ∀ {t : List Job}, findJid k t = some j → j ∈ t ∧ j.jid = k := by
  intro t
  induction t with
  | nil => intro h; cases h
  | cons a rest ih =>
    intro h
    rw [findJid] at h
    by_cases hka : a.jid = k
    · rw [if_pos (beqT hka)] at h
      cases h
      exact ⟨List.mem_cons_self j rest, hka⟩
    · rw [if_neg (beqF hka)] at h
      rcases ih h with ⟨hmem, hjid⟩
      exact ⟨List.mem_cons_of_mem a hmem, hjid⟩

theorem getjobpid_eq_some {t : List Job} {p : Int} {j : Job} :
    getjobpid t p = some j → 1 ≤ p ∧ j ∈ t ∧ j.pid = p := by
  intro h
  rw [getjobpid] at h
  by_cases hp : p < 1
  · rw [if_pos hp] at h; cases h
  · rw [if_neg hp] at h
    rcases findPid_eq_some h with ⟨hmem, hpid⟩
    exact ⟨by omega, hmem, hpid⟩

theorem getjobpid_eq_none {t : List Job} {p : Int} :
    getjobpid t p = none → 1 ≤ p → ∀ j ∈ t, j.pid ≠ p := by
  intro h hp
  rw [getjobpid, if_neg (by omega)] at h
  exact findPid_eq_none h

theorem getjobjid_eq_some {t : List Job} {k : Int} {j : Job} :
    getjobjid t k = some j → 1 ≤ k ∧ j ∈ t ∧ j.jid = k := by
  intro h
  rw [getjobjid] at h
  by_cases hk : k < 1
  · rw [if_pos hk] at h; cases h
  · rw [if_neg hk] at h
    rcases findJid_eq_some h with ⟨hmem, hjid⟩
    exact ⟨by omega, hmem, hjid⟩

/-! ### Membership in the mutated tables -/

theorem mem_setStateFirstPid {p : Int} {s : JState} {b : Job} :
    ∀ {t : List Job}, b ∈ setStateFirstPid p s t →
      b ∈ t ∨ ∃ b0 ∈ t, b = { b0 with state := s } := by
  intro t
  induction t with
  | nil => intro h; cases h
  | cons a rest ih =>
    intro h
    rw [setStateFirstPid] at h
    by_cases hpa : a.pid = p
    · rw [if_pos (beqT hpa)] at h
      rcases List.mem_cons.mp h with rfl | h2
      · exact Or.inr ⟨a, List.mem_cons_self a rest, rfl⟩
      · exact Or.inl (List.mem_cons_of_mem a h2)
    · rw [if_neg (beqF hpa)] at h
      rcases List.mem_cons.mp h with rfl | h2
      · exact Or.inl (List.mem_cons_self b rest)
      · rcases ih h2 with h3 | ⟨b0, hb0, rfl⟩
        · exact Or.inl (List.mem_cons_of_mem a h3)
        · exact Or.inr ⟨b0, List.mem_cons_of_mem a hb0, rfl⟩

theorem mem_setStateFirstJid {k : Int} {s : JState} {b : Job} :
    ∀ {t : List Job}, b ∈ setStateFirstJid k s t →
      b ∈ t ∨ ∃ b0 ∈ t, b = { b0 with state := s } := by
  intro t
  induction t with
  | nil => intro h; cases h
  | cons a rest ih =>
    intro h
    rw [setStateFirstJid] at h
    by_cases hka : a.jid = k
    · rw [if_pos (beqT hka)] at h
      rcases List.mem_cons.mp h with rfl | h2
      · exact Or.inr ⟨a, List.mem_cons_self a rest, rfl⟩
      · exact Or.inl (List.mem_cons_of_mem a h2)
    · rw [if_neg (beqF hka)] at h
      rcases List.mem_cons.mp h with rfl | h2
      · exact Or.inl (List.mem_cons_self b rest)
      · rcases ih h2 with h3 | ⟨b0, hb0, rfl⟩
        · exact Or.inl (List.mem_cons_of_mem a h3)
        · exact Or.inr ⟨b0, List.mem_cons_of_mem a hb0, rfl⟩

theorem mem_clearFirstPid {p : Int} {b : Job} :
    ∀ {t : List Job}, b ∈ (clearFirstPid p t).1 → b = clearedJob ∨ b ∈ t := by
  intro t
  induction t with
  | nil => intro h; cases h
  | cons a rest ih =>
    intro h
    rw [clearFirstPid] at h
    by_cases hpa : a.pid = p
    · rw [if_pos (beqT hpa)] at h
      rcases List.mem_cons.mp h with rfl | h2
      · exact Or.inl rfl
      · exact Or.inr (List.mem_cons_of_mem a h2)
    · rw [if_neg (beqF hpa)] at h
      rcases List.mem_cons.mp h with rfl | h2
      · exact Or.inr (List.mem_cons_self b rest)
      · rcases ih h2 with h3 | h3
        · exact Or.inl h3
        · exact Or.inr (List.mem_cons_of_mem a h3)

theorem mem_fillFirstFree {nj : Job} {b : Job} :
    ∀ {t : List Job}, b ∈ (fillFirstFree nj t).1 → b = nj ∨ b ∈ t := by
  intro t
  induction t with
  | nil => intro h; cases h
  | cons a rest ih =>
    intro h
    rw [fillFirstFree] at h
    by_cases hpa : a.pid = 0
    · rw [if_pos (beqT hpa)] at h
      rcases List.mem_cons.mp h with rfl | h2
      · exact Or.inl rfl
      · exact Or.inr (List.mem_cons_of_mem a h2)
    · rw [if_neg (beqF hpa)] at h
      rcases List.mem_cons.mp h with rfl | h2
      · exact Or.inr (List.mem_cons_self b rest)
      · rcases ih h2 with h3 | h3
        · exact Or.inl h3
        · exact Or.inr (List.mem_cons_of_mem a h3)

theorem mem_setStateFirstPid_of_find {p : Int} {s : JState} {j b : Job} :
    ∀ {t : List Job}, findPid p t = some j → b ∈ setStateFirstPid p s t →
      b ∈ t ∨ b = { j with state := s } := by
  intro t
  induction t with
  | nil => intro hf; cases hf
  | cons a rest ih =>
    intro hf h
    rw [findPid] at hf
    rw [setStateFirstPid] at h
    by_cases hpa : a.pid = p
    · rw [if_pos (beqT hpa)] at hf h
      cases hf
      rcases List.mem_cons.mp h with rfl | h2
      · exact Or.inr rfl
      · exact Or.inl (List.mem_cons_of_mem _ h2)
    · rw [if_neg (beqF hpa)] at hf h
      rcases List.mem_cons.mp h with rfl | h2
      · exact Or.inl (List.mem_cons_self b rest)
      · rcases ih hf h2 with h3 | h3
        · exact Or.inl (List.mem_cons_of_mem a h3)
        · exact Or.inr h3

theorem mem_setStateFirstJid_of_find {k : Int} {s : JState} {j b : Job} :
    ∀ {t : List Job}, findJid k t = some j → b ∈ setStateFirstJid k s t →
      b ∈ t ∨ b = { j with state := s } := by
  intro t
  induction t with
  | nil => intro hf; cases hf
  | cons a rest ih =>
    intro hf h
    rw [findJid] at hf
    rw [setStateFirstJid] at h
    by_cases hka : a.jid = k
    · rw [if_pos (beqT hka)] at hf h
      cases hf
      rcases List.mem_cons.mp h with rfl | h2
      · exact Or.inr rfl
      · exact Or.inl (List.mem_cons_of_mem _ h2)
    · rw [if_neg (beqF hka)] at hf h
      rcases List.mem_cons.mp h with rfl | h2
      · exact Or.inl (List.mem_cons_self b rest)
      · rcases ih hf h2 with h3 | h3
        · exact Or.inl (List.mem_cons_of_mem a h3)
        · exact Or.inr h3

/-! ### Invariant preservation by the slot mutators -/

theorem pidsDistinct_setStateFirstPid {p : Int} {s : JState} :
    ∀ {t : List Job}, PidsDistinct t → PidsDistinct (setStateFirstPid p s t) := by
  intro t
  induction t with
  | nil => intro h; exact h
  | cons a rest ih =>
    intro h
    rcases List.pairwise_cons.mp h with ⟨hhead, htail⟩
    rw [setStateFirstPid]
    by_cases hpa : a.pid = p
    · rw [if_pos (beqT hpa)]
      exact List.pairwise_cons.mpr ⟨fun b hb => hhead b hb, htail⟩
    · rw [if_neg (beqF hpa)]
      refine List.pairwise_cons.mpr ⟨?_, ih htail⟩
      intro b hb
      rcases mem_setStateFirstPid hb with h3 | ⟨b0, hb0, rfl⟩
      · exact hhead b h3
      · exact fun hA hB => hhead b0 hb0 hA hB

theorem pidsDistinct_setStateFirstJid {k : Int} {s : JState} :
    ∀ {t : List Job}, PidsDistinct t → PidsDistinct (setStateFirstJid k s t) := by
  intro t
  induction t with
  | nil => intro h; exact h
  | cons a rest ih =>
    intro h
    rcases List.pairwise_cons.mp h with ⟨hhead, htail⟩
    rw [setStateFirstJid]
    by_cases hka : a.jid = k
    · rw [if_pos (beqT hka)]
      exact List.pairwise_cons.mpr ⟨fun b hb => hhead b hb, htail⟩
    · rw [if_neg (beqF hka)]
      refine List.pairwise_cons.mpr ⟨?_, ih htail⟩
      intro b hb
      rcases mem_setStateFirstJid hb with h3 | ⟨b0, hb0, rfl⟩
      · exact hhead b h3
      · exact fun hA hB => hhead b0 hb0 hA hB

theorem pidsDistinct_clearFirstPid {p : Int} :
    ∀ {t : List Job}, PidsDistinct t → PidsDistinct (clearFirstPid p t).1 := by
  intro t
  induction t with
  | nil => intro h; exact h
  | cons a rest ih =>
    intro h
    rcases List.pairwise_cons.mp h with ⟨hhead, htail⟩
    rw [clearFirstPid]
    by_cases hpa : a.pid = p
    · rw [if_pos (beqT hpa)]
      refine List.pairwise_cons.mpr ⟨?_, htail⟩
      intro b _ hA
      exact absurd rfl hA
    · rw [if_neg (beqF hpa)]
      refine List.pairwise_cons.mpr ⟨?_, ih htail⟩
      intro b hb
      rcases mem_clearFirstPid hb with rfl | h3
      · intro _ hB; exact absurd rfl hB
      · exact hhead b h3

theorem jidsDistinct_setStateFirstPid {p : Int} {s : JState} :
    ∀ {t : List Job}, JidsDistinct t → JidsDistinct (setStateFirstPid p s t) := by
  intro t
  induction t with
  | nil => intro h; exact h
  | cons a rest ih =>
    intro h
    rcases List.pairwise_cons.mp h with ⟨hhead, htail⟩
    rw [setStateFirstPid]
    by_cases hpa : a.pid = p
    · rw [if_pos (beqT hpa)]
      exact List.pairwise_cons.mpr ⟨fun b hb => hhead b hb, htail⟩
    · rw [if_neg (beqF hpa)]
      refine List.pairwise_cons.mpr ⟨?_, ih htail⟩
      intro b hb
      rcases mem_setStateFirstPid hb with h3 | ⟨b0, hb0, rfl⟩
      · exact hhead b h3
      · exact fun hA hB => hhead b0 hb0 hA hB

theorem jidsDistinct_setStateFirstJid {k : Int} {s : JState} :
    ∀ {t : List Job}, JidsDistinct t → JidsDistinct (setStateFirstJid k s t) := by
  intro t
  induction t with
  | nil => intro h; exact h
  | cons a rest ih =>
    intro h
    rcases List.pairwise_cons.mp h with ⟨hhead, htail⟩
    rw [setStateFirstJid]
    by_cases hka : a.jid = k
    · rw [if_pos (beqT hka)]
      exact List.pairwise_cons.mpr ⟨fun b hb => hhead b hb, htail⟩
    · rw [if_neg (beqF hka)]
      refine List.pairwise_cons.mpr ⟨?_, ih htail⟩
      intro b hb
      rcases mem_setStateFirstJid hb with h3 | ⟨b0, hb0, rfl⟩
      · exact hhead b h3
      · exact fun hA hB => hhead b0 hb0 hA hB

theorem jidsDistinct_clearFirstPid {p : Int} :
    ∀ {t : List Job}, JidsDistinct t → JidsDistinct (clearFirstPid p t).1 := by
  intro t
  induction t with
  | nil => intro h; exact h
  | cons a rest ih =>
    intro h
    rcases List.pairwise_cons.mp h with ⟨hhead, htail⟩
    rw [clearFirstPid]
    by_cases hpa : a.pid = p
    · rw [if_pos (beqT hpa)]
      refine List.pairwise_cons.mpr ⟨?_, htail⟩
      intro b _ hA
      exact absurd rfl hA
    · rw [if_neg (beqF hpa)]
      refine List.pairwise_cons.mpr ⟨?_, ih htail⟩
      intro b hb
      rcases mem_clearFirstPid hb with rfl | h3
      · intro _ hB; exact absurd rfl hB
      · exact hhead b h3

theorem pidsDistinct_fillFirstFree {nj : Job} :
    ∀ {t : List Job}, PidsDistinct t → (∀ j ∈ t, j.pid ≠ nj.pid) →
      PidsDistinct (fillFirstFree nj t).1 := by
  intro t
  induction t with
  | nil => intro h _; exact h
  | cons a rest ih =>
    intro h hfresh
    rcases List.pairwise_cons.mp h with ⟨hhead, htail⟩
    rw [fillFirstFree]
    by_cases hpa : a.pid = 0
    · rw [if_pos (beqT hpa)]
      refine List.pairwise_cons.mpr ⟨?_, htail⟩
      intro b hb _ hB
      exact fun he => (hfresh b (List.mem_cons_of_mem a hb)) he.symm
    · rw [if_neg (beqF hpa)]
      refine List.pairwise_cons.mpr ⟨?_, ih htail (fun j hj => hfresh j (List.mem_cons_of_mem a hj))⟩
      intro b hb
      rcases mem_fillFirstFree hb with rfl | h3
      · exact fun _ _ => hfresh a (List.mem_cons_self a rest)
      · exact hhead b h3

theorem jidsDistinct_fillFirstFree {nj : Job} :
    ∀ {t : List Job}, JidsDistinct t → (∀ j ∈ t, j.jid ≠ nj.jid) →
      JidsDistinct (fillFirstFree nj t).1 := by
  intro t
  induction t with
  | nil => intro h _; exact h
  | cons a rest ih =>
    intro h hfresh
    rcases List.pairwise_cons.mp h with ⟨hhead, htail⟩
    rw [fillFirstFree]
    by_cases hpa : a.pid = 0
    · rw [if_pos (beqT hpa)]
      refine List.pairwise_cons.mpr ⟨?_, htail⟩
      intro b hb _ hB
      exact fun he => (hfresh b (List.mem_cons_of_mem a hb)) he.symm
    · rw [if_neg (beqF hpa)]
      refine List.pairwise_cons.mpr ⟨?_, ih htail (fun j hj => hfresh j (List.mem_cons_of_mem a hj))⟩
      intro b hb
      rcases mem_fillFirstFree hb with rfl | h3
      · exact fun _ _ => hfresh a (List.mem_cons_self a rest)
      · exact hhead b h3

theorem wfpids_setStateFirstPid {p : Int} {s : JState} {t : List Job}
    (h : WFpids t) : WFpids (setStateFirstPid p s t) := by
  intro b hb
  rcases mem_setStateFirstPid hb with h3 | ⟨b0, hb0, rfl⟩
  · exact h b h3
  · exact h b0 hb0

theorem wfpids_setStateFirstJid {k : Int} {s : JState} {t : List Job}
    (h : WFpids t) : WFpids (setStateFirstJid k s t) := by
  intro b hb
  rcases mem_setStateFirstJid hb with h3 | ⟨b0, hb0, rfl⟩
  · exact h b h3
  · exact h b0 hb0

theorem wfpids_clearFirstPid {p : Int} {t : List Job}
    (h : WFpids t) : WFpids (clearFirstPid p t).1 := by
  intro b hb
  rcases mem_clearFirstPid hb with rfl | h3
  · exact ⟨le_refl 0, Iff.rfl⟩
  · exact h b h3

theorem wfpids_fillFirstFree {nj : Job} {t : List Job}
    (h : WFpids t) (hnj : 0 ≤ nj.pid ∧ (nj.pid = 0 ↔ nj.jid = 0)) :
    WFpids (fillFirstFree nj t).1 := by
  intro b hb
  rcases mem_fillFirstFree hb with rfl | h3
  · exact hnj
  · exact h b h3

theorem noFG_setStateFirstPid {p : Int} {s : JState} {t : List Job}
    (hs : s ≠ JState.fg) (h : NoFG t) : NoFG (setStateFirstPid p s t) := by
  intro b hb
  rcases mem_setStateFirstPid hb with h3 | ⟨b0, _, rfl⟩
  · exact h b h3
  · exact hs

theorem noFG_setStateFirstJid {k : Int} {s : JState} {t : List Job}
    (hs : s ≠ JState.fg) (h : NoFG t) : NoFG (setStateFirstJid k s t) := by
  intro b hb
  rcases mem_setStateFirstJid hb with h3 | ⟨b0, _, rfl⟩
  · exact h b h3
  · exact hs

theorem noFG_clearFirstPid {p : Int} {t : List Job}
    (h : NoFG t) : NoFG (clearFirstPid p t).1 := by
  intro b hb
  rcases mem_clearFirstPid hb with rfl | h3
  · intro hc; cases hc
  · exact h b h3

theorem fgonly_setStateFirstPid {p q : Int} {s : JState} {t : List Job}
    (hs : s ≠ JState.fg) (h : FGonly t q) : FGonly (setStateFirstPid p s t) q := by
  intro b hb hfg
  rcases mem_setStateFirstPid hb with h3 | ⟨b0, _, rfl⟩
  · exact h b h3 hfg
  · exact absurd hfg hs

theorem fgonly_clearFirstPid {p q : Int} {t : List Job}
    (h : FGonly t q) : FGonly (clearFirstPid p t).1 q := by
  intro b hb hfg
  rcases mem_clearFirstPid hb with rfl | h3
  · cases hfg
  · exact h b h3 hfg

/-! ### fgpid, fgCount and uniqueness of the foreground slot -/

theorem fgpid_eq_zero_of_noFG : ∀ {t : List Job}, NoFG t → fgpid t = 0 := by
  intro t
  induction t with
  | nil => intro _; rfl
  | cons a rest ih =>
    intro h
    rw [fgpid]
    have ha : a.state ≠ JState.fg := h a (List.mem_cons_self a rest)
    rw [if_neg (by simpa using ha)]
    exact ih (fun j hj => h j (List.mem_cons_of_mem a hj))

theorem fgpid_spec :
    ∀ {t : List Job}, fgpid t = 0 ∨ ∃ j ∈ t, j.state = JState.fg ∧ fgpid t = j.pid := by
  intro t
  induction t with
  | nil => exact Or.inl rfl
  | cons a rest ih =>
    rw [fgpid]
    by_cases ha : a.state = JState.fg
    · rw [if_pos (by simpa using ha)]
      exact Or.inr ⟨a, List.mem_cons_self a rest, ha, rfl⟩
    · rw [if_neg (by simpa using ha)]
      rcases ih with h0 | ⟨j, hj, hfg, hp⟩
      · exact Or.inl h0
      · exact Or.inr ⟨j, List.mem_cons_of_mem a hj, hfg, hp⟩

theorem fgCount_eq_zero_of_noFG : ∀ {t : List Job}, NoFG t → fgCount t = 0 := by
  intro t
  induction t with
  | nil => intro _; rfl
  | cons a rest ih =>
    intro h
    have ha : a.state ≠ JState.fg := h a (List.mem_cons_self a rest)
    rw [fgCount, List.filter_cons]
    rw [if_neg (by simpa using ha)]
    exact ih (fun j hj => h j (List.mem_cons_of_mem a hj))

theorem fgCount_le_one_of_fgonly {p : Int} :
    ∀ {t : List Job}, p ≠ 0 → PidsDistinct t → FGonly t p → fgCount t ≤ 1 := by
  intro t
  induction t with
  | nil => intro _ _ _; exact Nat.zero_le 1
  | cons a rest ih =>
    intro hp hd hf
    rcases List.pairwise_cons.mp hd with ⟨hhead, htail⟩
    rw [fgCount, List.filter_cons]
    by_cases ha : a.state = JState.fg
    · rw [if_pos (by simpa using ha)]
      have hap : a.pid = p := hf a (List.mem_cons_self a rest) ha
      have hrest : NoFG rest := by
        intro b hb hbfg
        have hbp : b.pid = p := hf b (List.mem_cons_of_mem a hb) hbfg
        exact hhead b hb (by rw [hap]; exact hp) (by rw [hbp]; exact hp) (by rw [hap, hbp])
      have : fgCount rest = 0 := fgCount_eq_zero_of_noFG hrest
      rw [fgCount] at this
      simp [this]
    · rw [if_neg (by simpa using ha)]
      exact ih hp htail (fun b hb => hf b (List.mem_cons_of_mem a hb))

theorem noFG_setStateFirstPid_st {p : Int} :
    ∀ {t : List Job}, p ≠ 0 → PidsDistinct t → FGonly t p →
      NoFG (setStateFirstPid p JState.st t) := by
  intro t
  induction t with
  | nil => intro _ _ _ b hb; cases hb
  | cons a rest ih =>
    intro hp hd hf
    rcases List.pairwise_cons.mp hd with ⟨hhead, htail⟩
    rw [setStateFirstPid]
    by_cases hpa : a.pid = p
    · rw [if_pos (beqT hpa)]
      intro b hb
      rcases List.mem_cons.mp hb with rfl | h2
      · intro hc; cases hc
      · intro hbfg
        have hbp : b.pid = p := hf b (List.mem_cons_of_mem a h2) hbfg
        exact hhead b h2 (by rw [hpa]; exact hp) (by rw [hbp]; exact hp) (by rw [hpa, hbp])
    · rw [if_neg (beqF hpa)]
      intro b hb
      rcases List.mem_cons.mp hb with rfl | h2
      · intro hbfg
        exact hpa (hf b (List.mem_cons_self b rest) hbfg)
      · exact ih hp htail (fun j hj => hf j (List.mem_cons_of_mem a hj)) b h2

theorem noFG_clearFirstPid_of_fgonly {p : Int} :
    ∀ {t : List Job}, p ≠ 0 → PidsDistinct t → FGonly t p →
      NoFG (clearFirstPid p t).1 := by
  intro t
  induction t with
  | nil => intro _ _ _ b hb; cases hb
  | cons a rest ih =>
    intro hp hd hf
    rcases List.pairwise_cons.mp hd with ⟨hhead, htail⟩
    rw [clearFirstPid]
    by_cases hpa : a.pid = p
    · rw [if_pos (beqT hpa)]
      intro b hb
      rcases List.mem_cons.mp hb with rfl | h2
      · intro hc; cases hc
      · intro hbfg
        have hbp : b.pid = p := hf b (List.mem_cons_of_mem a h2) hbfg
        exact hhead b h2 (by rw [hpa]; exact hp) (by rw [hbp]; exact hp) (by rw [hpa, hbp])
    · rw [if_neg (beqF hpa)]
      intro b hb
      rcases List.mem_cons.mp hb with rfl | h2
      · intro hbfg
        exact hpa (hf b (List.mem_cons_self b rest) hbfg)
      · exact ih hp htail (fun j hj => hf j (List.mem_cons_of_mem a hj)) b h2

theorem setStateFirstPid_idem {p : Int} {s : JState} :
    ∀ {t : List Job}, setStateFirstPid p s (setStateFirstPid p s t) = setStateFirstPid p s t := by
  intro t
  induction t with
  | nil => rfl
  | cons a rest ih =>
    rw [setStateFirstPid]
    by_cases hpa : a.pid = p
    · rw [if_pos (beqT hpa)]
      rw [setStateFirstPid, if_pos (beqT hpa)]
    · rw [if_neg (beqF hpa)]
      rw [setStateFirstPid, if_neg (beqF hpa), ih]

/-! ### freejid: the returned id is free and minimal -/

theorem jidTaken_iff {t : List Job} {k : Int} :
    jidTaken t k = true ↔ ∃ j ∈ t, j.jid ≠ 0 ∧ j.jid = k := by
  simp [jidTaken, List.any_eq_true, Bool.and_eq_true, bne_iff_ne, beq_iff_eq]

theorem freeSearch_spec (t : List Job) :
    ∀ fuel k : Nat, MAXJOBS + 1 ≤ fuel + k →
      freeSearch t fuel k = 0 ∨
      (∃ r : Nat, freeSearch t fuel k = (r : Int) ∧ k ≤ r ∧ r ≤ MAXJOBS ∧
        jidTaken t (r : Int) = false ∧
        ∀ m : Nat, k ≤ m → m < r → jidTaken t (m : Int) = true) := by
  intro fuel
  induction fuel with
  | zero => intro k _; exact Or.inl rfl
  | succ f ih =>
    intro k hk
    rw [freeSearch]
    by_cases hkM : k ≤ MAXJOBS
    · rw [if_pos hkM]
      by_cases htk : jidTaken t (k : Int) = true
      · rw [if_pos htk]
        rcases ih (k + 1) (by omega) with h0 | ⟨r, hr, hkr, hrM, hfree, hall⟩
        · exact Or.inl h0
        · refine Or.inr ⟨r, hr, by omega, hrM, hfree, ?_⟩
          intro m h1 h2
          rcases Nat.eq_or_lt_of_le h1 with rfl | h3
          · exact htk
          · exact hall m (by omega) h2
      · have htk2 : jidTaken t (k : Int) = false := Bool.eq_false_iff.mpr htk
        rw [if_neg htk]
        exact Or.inr ⟨k, rfl, le_refl k, hkM, htk2, fun m h1 h2 => absurd h2 (by omega)⟩
    · rw [if_neg hkM]
      exact Or.inl rfl

theorem freejid_spec (t : List Job) :
    freejid t = 0 ∨
    (∃ r : Nat, freejid t = (r : Int) ∧ 1 ≤ r ∧ r ≤ MAXJOBS ∧
      jidTaken t (r : Int) = false ∧
      ∀ m : Nat, 1 ≤ m → m < r → jidTaken t (m : Int) = true) :=
  freeSearch_spec t (MAXJOBS + 1) 1 (by omega)

theorem freejid_bounds {t : List Job} (h : freejid t ≠ 0) :
    1 ≤ freejid t ∧ freejid t ≤ (MAXJOBS : Int) := by
  rcases freejid_spec t with h0 | ⟨r, hr, h1, hM, _, _⟩
  · exact absurd h0 h
  · rw [hr]
    constructor
    · exact_mod_cast h1
    · exact_mod_cast hM

theorem freejid_not_taken {t : List Job} (h : freejid t ≠ 0) :
    ∀ j ∈ t, j.jid ≠ freejid t := by
  rcases freejid_spec t with h0 | ⟨r, hr, h1, _, hfree, _⟩
  · exact absurd h0 h
  · intro j hj he
    have hj0 : j.jid ≠ 0 := by
      rw [he, hr]
      omega
    have : jidTaken t (r : Int) = true := jidTaken_iff.mpr ⟨j, hj, hj0, by rw [he, hr]⟩
    rw [this] at hfree
    cases hfree

theorem freejid_smallest {t : List Job} (h : freejid t ≠ 0) :
    ∀ m : Int, 1 ≤ m → m < freejid t → ∃ j ∈ t, j.jid ≠ 0 ∧ j.jid = m := by
  rcases freejid_spec t with h0 | ⟨r, hr, _, _, _, hall⟩
  · exact absurd h0 h
  · intro m h1 h2
    rw [hr] at h2
    have hmn : (m.toNat : Int) = m := Int.toNat_of_nonneg (by omega)
    have := hall m.toNat (by omega) (by omega)
    rcases jidTaken_iff.mp this with ⟨j, hj, hj0, hje⟩
    exact ⟨j, hj, hj0, by rw [hje, hmn]⟩

/-! ### fillFirstFree and addjob: case analysis -/

theorem fillFirstFree_false {nj : Job} :
    ∀ {t : List Job}, (fillFirstFree nj t).2 = false → (fillFirstFree nj t).1 = t := by
  intro t
  induction t with
  | nil => intro _; rfl
  | cons a rest ih =>
    intro h
    rw [fillFirstFree] at h ⊢
    by_cases hpa : a.pid = 0
    · rw [if_pos (beqT hpa)] at h; cases h
    · rw [if_neg (beqF hpa)] at h ⊢
      simp only at h ⊢
      rw [ih h]

theorem fillFirstFree_true {nj : Job} :
    ∀ {t : List Job}, (fillFirstFree nj t).2 = true →
      ∃ i, i < t.length ∧
        (∀ m, m < i → ∃ jm, t[m]? = some jm ∧ jm.pid ≠ 0) ∧
        (∃ j0, t[i]? = some j0 ∧ j0.pid = 0) ∧
        (fillFirstFree nj t).1 = t.set i nj := by
  intro t
  induction t with
  | nil => intro h; cases h
  | cons a rest ih =>
    intro h
    rw [fillFirstFree] at h
    by_cases hpa : a.pid = 0
    · refine ⟨0, by simp, fun m hm => absurd hm (by omega), ⟨a, by simp, hpa⟩, ?_⟩
      rw [fillFirstFree, if_pos (beqT hpa)]
      rfl
    · rw [if_neg (beqF hpa)] at h
      simp only at h
      rcases ih h with ⟨i, hlen, hpre, ⟨j0, hj0, hj0p⟩, heq⟩
      refine ⟨i + 1, by simpa using hlen, ?_, ⟨j0, by simpa using hj0, hj0p⟩, ?_⟩
      · intro m hm
        match m with
        | 0 => exact ⟨a, by simp, hpa⟩
        | Nat.succ m2 =>
          rcases hpre m2 (by omega) with ⟨jm, hjm, hjmp⟩
          exact ⟨jm, by simpa using hjm, hjmp⟩
      · rw [fillFirstFree, if_neg (beqF hpa)]
        simp only [List.set]
        rw [heq]

theorem addjob_fail {t : List Job} {p : Int} {s : JState} {c : String}
    (h : p < 1 ∨ freejid t = 0) : addjob t p s c = (t, false) := by
  rw [addjob]
  rcases h with h | h
  · rw [if_pos h]
  · by_cases hp : p < 1
    · rw [if_pos hp]
    · rw [if_neg hp]
      simp [h]

theorem addjob_succ {t : List Job} {p : Int} {s : JState} {c : String}
    (h : (addjob t p s c).2 = true) :
    1 ≤ p ∧ freejid t ≠ 0 ∧
      (addjob t p s c).1 =
        (fillFirstFree { pid := p, jid := freejid t, state := s, cmdline := c } t).1 ∧
      (fillFirstFree { pid := p, jid := freejid t, state := s, cmdline := c } t).2 = true := by
  by_cases hp : p < 1
  · rw [addjob, if_pos hp] at h; cases h
  · by_cases hf : freejid t = 0
    · rw [addjob, if_neg hp] at h
      simp [hf] at h
    · rw [addjob, if_neg hp] at h ⊢
      simp only [hf, if_neg hf] at h ⊢
      exact ⟨by omega, hf, rfl, h⟩

theorem addjob_not_succ {t : List Job} {p : Int} {s : JState} {c : String}
    (h : (addjob t p s c).2 = false) : (addjob t p s c).1 = t := by
  by_cases hp : p < 1
  · rw [addjob, if_pos hp]
  · by_cases hf : freejid t = 0
    · rw [addjob, if_neg hp]
      simp [hf]
    · rw [addjob, if_neg hp] at h ⊢
      simp only [hf, if_neg hf] at h ⊢
      exact fillFirstFree_false h

/-! ### Claim C10: non-positive keys -/

/-- C10: for every job table and every non-positive key `k` (including 0,
the pid stored in a free slot), `getjobpid`, `getjobjid` and `pid2jid`
return not-found without matching any free slot, and `deletejob` returns
false leaving the table unchanged. -/
theorem tsh_C10_nonpositive_keys (t : List Job) (k : Int) (hk : k ≤ 0) :
    getjobpid t k = none ∧ getjobjid t k = none ∧ pid2jid t k = 0 ∧
      deletejob t k = (t, false) := by
  have hk1 : k < 1 := by omega
  exact ⟨by rw [getjobpid, if_pos hk1], by rw [getjobjid, if_pos hk1],
    by rw [pid2jid, if_pos hk1], by rw [deletejob, if_pos hk1]⟩

/-- Witness for C10 at `k = 0` on the all-free initial table. -/
theorem tsh_C10_witness :
    (0 : Int) ≤ 0 ∧
      (getjobpid initjobs 0 = none ∧ getjobjid initjobs 0 = none ∧
        pid2jid initjobs 0 = 0 ∧ deletejob initjobs 0 = (initjobs, false)) :=
  ⟨le_refl 0, tsh_C10_nonpositive_keys initjobs 0 (le_refl 0)⟩

/-! ### Claim C9: reaped pid with no matching job -/

/-- C9: when the reap loop of `sigchld_handler` meets a pid with no matching
job, it logs the anomaly, performs no table mutation for that pid, and
continues with the remaining reapable children on the unchanged table. -/
theorem tsh_C9_unknown_pid (t : List Job) (p : Int) (w : WStatus)
    (rest : List (Int × WStatus)) (h : getjobpid t p = none) :
    sigchldLoop t ((p, w) :: rest) =
      ((sigchldLoop t rest).1, Notice.noJobFoundMsg p :: (sigchldLoop t rest).2) := by
  have hstep : chldStep t p w = (t, [Notice.noJobFoundMsg p]) := by
    rw [chldStep, h]
  rw [sigchldLoop, hstep]
  simp

/-- Witness for C9: reaping pid 99 on the empty table. -/
theorem tsh_C9_witness :
    getjobpid initjobs 99 = none ∧
      sigchldLoop initjobs [(99, WStatus.exited 0)] =
        ((sigchldLoop initjobs []).1, Notice.noJobFoundMsg 99 :: (sigchldLoop initjobs []).2) :=
  ⟨by decide, tsh_C9_unknown_pid initjobs 99 (WStatus.exited 0) [] (by decide)⟩

/-! ### Claim C7: sigint_handler frame and group targeting -/

/-- C7: the interrupt-relay handler leaves every slot of the table unchanged,
and when a foreground job exists it sends SIGINT to `-fgpid` (the whole
process group, by the negative-pid convention). -/
theorem tsh_C7_sigint_frame (t : List Job) :
    (sigintRun t).1 = t ∧
      (fgpid t ≠ 0 →
        (sigintRun t).2 =
          [SysEvent.saveErrno, SysEvent.kill (-(fgpid t)) Sig.sigIntS,
           SysEvent.restoreErrno]) := by
  constructor
  · rfl
  · intro h
    rw [sigintRun]
    simp [bne_iff_ne, h]

/-- Witness for C7 on a table holding one foreground job with pid 5. -/
theorem tsh_C7_witness :
    fgpid oneFgT ≠ 0 ∧
      ((sigintRun oneFgT).1 = oneFgT ∧
        (sigintRun oneFgT).2 =
          [SysEvent.saveErrno, SysEvent.kill (-(fgpid oneFgT)) Sig.sigIntS,
           SysEvent.restoreErrno]) :=
  ⟨by decide, (tsh_C7_sigint_frame oneFgT).1,
    (tsh_C7_sigint_frame oneFgT).2 (by decide)⟩

/-! ### Claim C8: signal-mask discipline of the handlers -/

/-- C8 (amended): only the child-status-change handler blocks the full signal
set on entry and restores the prior mask on exit; the interrupt-relay and
stop-relay handlers perform no signal-mask manipulation at all (they only
save and restore errno). -/
theorem tsh_C8_amended_masks (t : List Job) (reaps : List (Int × WStatus)) :
    (sigchldRun t reaps).2 =
      [SysEvent.saveErrno, SysEvent.blockAll, SysEvent.restoreMask,
       SysEvent.restoreErrno] ∧
    ((sigintRun t).2.filter
        (fun e => e == SysEvent.blockAll || e == SysEvent.restoreMask)) = [] ∧
    ((sigtstpRun t).2.filter
        (fun e => e == SysEvent.blockAll || e == SysEvent.restoreMask)) = [] := by
  refine ⟨rfl, ?_, ?_⟩
  · rw [sigintRun]
    cases hb : (fgpid t != 0) <;> simp [hb]
  · rw [sigtstpRun]
    cases hb : (fgpid t != 0) <;> simp [hb]

/-- Counterexample for C8 as stated: on a table with a live foreground job
the interrupt- and stop-relay handlers run their full bodies without ever
blocking the signal set or restoring a mask. -/
theorem tsh_C8_counterexample :
    SysEvent.blockAll ∉ (sigintRun oneFgT).2 ∧
    SysEvent.restoreMask ∉ (sigintRun oneFgT).2 ∧
    SysEvent.blockAll ∉ (sigtstpRun oneFgT).2 ∧
    SysEvent.restoreMask ∉ (sigtstpRun oneFgT).2 := by
  decide

/-! ### Claim C4: addjob failure and success behaviour -/

/-- C4: `addjob` fails and leaves every slot unchanged whenever the pid is
not positive or no free job id exists; when it succeeds it fills the first
free slot with the given pid, the fresh id `freejid t` (different from every
assigned id), the given state and a copy of the command text. -/
theorem tsh_C4_addjob_spec (t : List Job) (p : Int) (s : JState) (c : String) :
    ((p < 1 ∨ freejid t = 0) → addjob t p s c = (t, false)) ∧
    ((addjob t p s c).2 = true →
      freejid t ≠ 0 ∧ (∀ j ∈ t, j.jid ≠ 0 → j.jid ≠ freejid t) ∧
      ∃ i, i < t.length ∧
        (∀ m, m < i → ∃ jm, t[m]? = some jm ∧ jm.pid ≠ 0) ∧
        (∃ j0, t[i]? = some j0 ∧ j0.pid = 0) ∧
        (addjob t p s c).1 =
          t.set i { pid := p, jid := freejid t, state := s, cmdline := c }) := by
  constructor
  · exact addjob_fail
  · intro h
    rcases addjob_succ h with ⟨hp, hf, heq, hfill⟩
    refine ⟨hf, fun j hj _ => freejid_not_taken hf j hj, ?_⟩
    rcases fillFirstFree_true hfill with ⟨i, hlen, hpre, hfree, hset⟩
    exact ⟨i, hlen, hpre, hfree, by rw [heq, hset]⟩

/-- Witness for C4: a non-positive pid fails, a full table fails, and a
registration on the empty table succeeds into slot 0 with id 1. -/
theorem tsh_C4_witness :
    addjob initjobs (-1) JState.bg "x" = (initjobs, false) ∧
    addjob fullT 5 JState.bg "x" = (fullT, false) ∧
    (freejid initjobs ≠ 0 ∧
      (∀ j ∈ initjobs, j.jid ≠ 0 → j.jid ≠ freejid initjobs) ∧
      ∃ i, i < initjobs.length ∧
        (∀ m, m < i → ∃ jm, initjobs[m]? = some jm ∧ jm.pid ≠ 0) ∧
        (∃ j0, initjobs[i]? = some j0 ∧ j0.pid = 0) ∧
        (addjob initjobs 5 JState.bg "x").1 =
          initjobs.set i
            { pid := 5, jid := freejid initjobs, state := JState.bg, cmdline := "x" }) :=
  ⟨(tsh_C4_addjob_spec initjobs (-1) JState.bg "x").1 (Or.inl (by decide)),
   (tsh_C4_addjob_spec fullT 5 JState.bg "x").1 (Or.inr (by decide)),
   (tsh_C4_addjob_spec initjobs 5 JState.bg "x").2 (by decide)⟩

/-! ### Claim C6: idempotence of the stop-relay mutation -/

theorem noFG_of_fgCount_zero : ∀ {t : List Job}, fgCount t = 0 → NoFG t := by
  intro t h j hj hfg
  have : j ∈ t.filter (fun j => j.state == JState.fg) :=
    List.mem_filter.mpr ⟨hj, by simp [hfg]⟩
  rw [fgCount, List.length_eq_zero] at h
  rw [h] at this
  cases this

theorem fgonly_fgpid_of_atMostOne :
    ∀ {t : List Job}, fgCount t ≤ 1 → FGonly t (fgpid t) := by
  intro t
  induction t with
  | nil => intro _ j hj; cases hj
  | cons a rest ih =>
    intro h
    rw [fgpid]
    by_cases ha : a.state = JState.fg
    · rw [if_pos (by simpa using ha)]
      have hcnt : fgCount rest = 0 := by
        rw [fgCount, List.filter_cons, if_pos (by simpa using ha)] at h
        simp only [List.length_cons] at h
        rw [fgCount]
        omega
      have hrest : NoFG rest := noFG_of_fgCount_zero hcnt
      intro b hb hbfg
      rcases List.mem_cons.mp hb with rfl | h2
      · rfl
      · exact absurd hbfg (hrest b h2)
    · rw [if_neg (by simpa using ha)]
      have hcnt : fgCount rest ≤ 1 := by
        rw [fgCount, List.filter_cons, if_neg (by simpa using ha)] at h
        exact h
      intro b hb hbfg
      rcases List.mem_cons.mp hb with rfl | h2
      · exact absurd hbfg ha
      · exact ih hcnt b h2 hbfg

/-- C6 (amended): on every table with at most one foreground slot — the
shape the supervisor maintains — the stop-relay handler's table mutation is
idempotent. -/
theorem tsh_C6_amended_idempotent (t : List Job) (h : AtMostOneFG t) :
    sigtstpMut (sigtstpMut t) = sigtstpMut t := by
  cases hbz : (fgpid t != 0) with
  | false =>
    have h1 : sigtstpMut t = t := by rw [sigtstpMut]; simp [hbz]
    rw [h1, h1]
  | true =>
    by_cases hp1 : fgpid t < 1
    · have h1 : sigtstpMut t = t := by
        rw [sigtstpMut]
        simp only [hbz, if_true]
        rw [setJobStateByPid, if_pos hp1]
      rw [h1, h1]
    · have hmut : sigtstpMut t = setStateFirstPid (fgpid t) JState.st t := by
        rw [sigtstpMut]
        simp only [hbz, if_true]
        rw [setJobStateByPid, if_neg hp1]
      have hF : FGonly t (fgpid t) := fgonly_fgpid_of_atMostOne h
      rcases @fgpid_spec (setStateFirstPid (fgpid t) JState.st t) with h0 | ⟨j, hj, hjfg, hjp⟩
      · rw [hmut, sigtstpMut, h0]
        simp
      · have hjt : j ∈ t := by
          rcases mem_setStateFirstPid hj with h3 | ⟨b0, _, rfl⟩
          · exact h3
          · cases hjfg
        have hpe : fgpid (setStateFirstPid (fgpid t) JState.st t) = fgpid t := by
          rw [hjp, hF j hjt hjfg]
        rw [hmut, sigtstpMut, hpe]
        simp only [hbz, if_true]
        rw [setJobStateByPid, if_neg hp1]
        exact setStateFirstPid_idem

/-- Counterexample for C6 as stated: on a table holding two foreground slots
with different pids the stop-relay mutation is not idempotent (the first
application stops pid 5's slot, the second stops pid 7's). -/
theorem tsh_C6_counterexample :
    sigtstpMut (sigtstpMut twoFgT) ≠ sigtstpMut twoFgT := by decide

/-- Witness for C6 on a table with a single foreground job. -/
theorem tsh_C6_witness :
    AtMostOneFG oneFgT ∧ sigtstpMut (sigtstpMut oneFgT) = sigtstpMut oneFgT :=
  ⟨by show fgCount oneFgT ≤ 1; decide,
   tsh_C6_amended_idempotent oneFgT (by show fgCount oneFgT ≤ 1; decide)⟩

/-! ### Claim C3: the exit-notice of sigchld_handler -/

/-- C3 (evaluation at the failing input): on a table whose only job is
pid 7 with job id 1, reaping pid 7 with a normal-exit status removes the
job as required, but the emitted notice carries job id 0 — the source calls
`deletejob` before reading `job->jid` for the printf, so the cleared slot is
read — while the job's id was 1. -/
theorem tsh_C3_exit_notice_bug :
    (getjobpid oneJobT 7).map Job.jid = some 1 ∧
    chldStep oneJobT 7 (WStatus.exited 0) = (initjobs, [Notice.exitedMsg 0 7 0]) ∧
    Notice.exitedMsg 0 7 0 ≠ Notice.exitedMsg 1 7 0 := by
  refine ⟨by decide, by decide, by decide⟩

/-! ### Claim C5: rejection paths of do_bgfg -/

theorem do_bgfg_percent {t : List Job} {cmd arg : String} {rest : List Char}
    (h : arg.data = '%' :: rest) :
    do_bgfg t cmd (some arg) =
      (if atoi rest ≤ 0 then (t, BgfgOut.notPosJidMsg cmd)
       else
         match getjobjid t (atoi rest) with
         | none => (t, BgfgOut.noSuchJobMsg arg)
         | some job => bgfgFinish t cmd job true (atoi rest)) := by
  simp only [do_bgfg]
  rw [h]
  simp only [List.head?_cons, List.tail_cons, beq_self_eq_true, if_true]

theorem do_bgfg_bare {t : List Job} {cmd arg : String}
    (h : arg.data.head? ≠ some '%') :
    do_bgfg t cmd (some arg) =
      (if atoi arg.data ≤ 0 then (t, BgfgOut.notPosPidMsg cmd)
       else
         match getjobpid t (atoi arg.data) with
         | none => (t, BgfgOut.noSuchProcessMsg (atoi arg.data))
         | some job => bgfgFinish t cmd job false (atoi arg.data)) := by
  simp only [do_bgfg]
  rw [if_neg (by simp [h])]

/-- C5: every rejection path of `do_bgfg` — missing argument, `%`-reference
or bare pid that does not parse as a positive integer, and well-formed
reference naming no live job — leaves the table unchanged and produces its
own distinct message constructor. -/
theorem tsh_C5_bgfg_rejections (t : List Job) (cmd arg : String) :
    (do_bgfg t cmd none = (t, BgfgOut.needArgMsg cmd)) ∧
    (∀ rest, arg.data = '%' :: rest → atoi rest ≤ 0 →
      do_bgfg t cmd (some arg) = (t, BgfgOut.notPosJidMsg cmd)) ∧
    (∀ rest, arg.data = '%' :: rest → 0 < atoi rest → getjobjid t (atoi rest) = none →
      do_bgfg t cmd (some arg) = (t, BgfgOut.noSuchJobMsg arg)) ∧
    (arg.data.head? ≠ some '%' → atoi arg.data ≤ 0 →
      do_bgfg t cmd (some arg) = (t, BgfgOut.notPosPidMsg cmd)) ∧
    (arg.data.head? ≠ some '%' → 0 < atoi arg.data → getjobpid t (atoi arg.data) = none →
      do_bgfg t cmd (some arg) = (t, BgfgOut.noSuchProcessMsg (atoi arg.data))) ∧
    (∀ (s1 s2 : String) (q : Int),
      BgfgOut.needArgMsg s1 ≠ BgfgOut.notPosJidMsg s2 ∧
      BgfgOut.needArgMsg s1 ≠ BgfgOut.notPosPidMsg s2 ∧
      BgfgOut.needArgMsg s1 ≠ BgfgOut.noSuchJobMsg s2 ∧
      BgfgOut.needArgMsg s1 ≠ BgfgOut.noSuchProcessMsg q ∧
      BgfgOut.notPosJidMsg s1 ≠ BgfgOut.noSuchJobMsg s2 ∧
      BgfgOut.notPosJidMsg s1 ≠ BgfgOut.noSuchProcessMsg q ∧
      BgfgOut.notPosPidMsg s1 ≠ BgfgOut.noSuchJobMsg s2 ∧
      BgfgOut.notPosPidMsg s1 ≠ BgfgOut.noSuchProcessMsg q ∧
      BgfgOut.notPosJidMsg s1 ≠ BgfgOut.notPosPidMsg s2 ∧
      BgfgOut.noSuchJobMsg s1 ≠ BgfgOut.noSuchProcessMsg q) := by
  refine ⟨rfl, ?_, ?_, ?_, ?_, ?_⟩
  · intro rest h1 h2
    rw [do_bgfg_percent h1, if_pos h2]
  · intro rest h1 h2 h3
    rw [do_bgfg_percent h1, if_neg (by omega), h3]
  · intro h1 h2
    rw [do_bgfg_bare h1, if_pos h2]
  · intro h1 h2 h3
    rw [do_bgfg_bare h1, if_neg (by omega), h3]
  · intro s1 s2 q
    refine ⟨?_, ?_, ?_, ?_, ?_, ?_, ?_, ?_, ?_, ?_⟩ <;>
      exact fun h => BgfgOut.noConfusion h

/-- Witness for C5: the five rejection shapes at concrete inputs on the
empty table (`%0`, `%5`, `abc`, `7`, and a missing argument). -/
theorem tsh_C5_witness :
    do_bgfg initjobs "bg" none = (initjobs, BgfgOut.needArgMsg "bg") ∧
    do_bgfg initjobs "bg" (some ⟨['%', '0']⟩) =
      (initjobs, BgfgOut.notPosJidMsg "bg") ∧
    do_bgfg initjobs "bg" (some ⟨['%', '5']⟩) =
      (initjobs, BgfgOut.noSuchJobMsg ⟨['%', '5']⟩) ∧
    do_bgfg initjobs "fg" (some ⟨['a', 'b', 'c']⟩) =
      (initjobs, BgfgOut.notPosPidMsg "fg") ∧
    do_bgfg initjobs "fg" (some ⟨['7']⟩) =
      (initjobs, BgfgOut.noSuchProcessMsg (atoi ['7'])) :=
  ⟨(tsh_C5_bgfg_rejections initjobs "bg" "x").1,
   (tsh_C5_bgfg_rejections initjobs "bg" ⟨['%', '0']⟩).2.1 ['0'] rfl (by decide),
   (tsh_C5_bgfg_rejections initjobs "bg" ⟨['%', '5']⟩).2.2.1 ['5'] rfl (by decide) (by decide),
   (tsh_C5_bgfg_rejections initjobs "fg" ⟨['a', 'b', 'c']⟩).2.2.2.1 (by decide) (by decide),
   (tsh_C5_bgfg_rejections initjobs "fg" ⟨['7']⟩).2.2.2.2.1 (by decide) (by decide) (by decide)⟩

/-! ### Claim C1: register/remove sequences keep ids minimal and unique -/

theorem pairwise_replicate_of {R : Job → Job → Prop} {a : Job} (hR : R a a) :
    ∀ n, (List.replicate n a).Pairwise R := by
  intro n
  induction n with
  | zero => exact List.Pairwise.nil
  | succ m ih =>
    rw [List.replicate_succ]
    refine List.pairwise_cons.mpr ⟨?_, ih⟩
    intro b hb
    rw [List.eq_of_mem_replicate hb]
    exact hR

theorem wfpids_initjobs : WFpids initjobs := by
  intro j hj
  rw [List.eq_of_mem_replicate hj]
  exact ⟨le_refl 0, Iff.rfl⟩

theorem pidsDistinct_initjobs : PidsDistinct initjobs :=
  pairwise_replicate_of (fun h _ => absurd rfl h) MAXJOBS

theorem jidsDistinct_initjobs : JidsDistinct initjobs :=
  pairwise_replicate_of (fun h _ => absurd rfl h) MAXJOBS

theorem noFG_initjobs : NoFG initjobs := by
  intro j hj
  rw [List.eq_of_mem_replicate hj]
  intro hc
  cases hc

theorem fill_mem {nj : Job} :
    ∀ {t : List Job}, (fillFirstFree nj t).2 = true → nj ∈ (fillFirstFree nj t).1 := by
  intro t
  induction t with
  | nil => intro h; cases h
  | cons a rest ih =>
    intro h
    rw [fillFirstFree] at h ⊢
    by_cases hpa : a.pid = 0
    · rw [if_pos (beqT hpa)] at h ⊢
      exact List.mem_cons_self nj rest
    · rw [if_neg (beqF hpa)] at h ⊢
      simp only at h ⊢
      exact List.mem_cons_of_mem a (ih h)

theorem inv1_addjob {t : List Job} {p : Int} {s : JState} {c : String}
    (hW : WFpids t) (hP : PidsDistinct t) (hJ : JidsDistinct t)
    (hfresh : ∀ j ∈ t, j.pid ≠ p) :
    WFpids (addjob t p s c).1 ∧ PidsDistinct (addjob t p s c).1 ∧
      JidsDistinct (addjob t p s c).1 := by
  cases hsucc : (addjob t p s c).2 with
  | false => rw [addjob_not_succ hsucc]; exact ⟨hW, hP, hJ⟩
  | true =>
    rcases addjob_succ hsucc with ⟨hp1, hf, heq, _⟩
    rw [heq]
    refine ⟨?_, ?_, ?_⟩
    · refine wfpids_fillFirstFree hW ⟨?_, ?_⟩
      · show (0 : Int) ≤ p
        omega
      · constructor
        · intro h2
          exact absurd (show p = 0 from h2) (by omega)
        · intro h2
          exact absurd (show freejid t = 0 from h2) hf
    · exact pidsDistinct_fillFirstFree hP hfresh
    · exact jidsDistinct_fillFirstFree hJ (freejid_not_taken hf)

theorem inv1_deletejob {t : List Job} {p : Int}
    (hW : WFpids t) (hP : PidsDistinct t) (hJ : JidsDistinct t) :
    WFpids (deletejob t p).1 ∧ PidsDistinct (deletejob t p).1 ∧
      JidsDistinct (deletejob t p).1 := by
  rw [deletejob]
  by_cases hp : p < 1
  · rw [if_pos hp]; exact ⟨hW, hP, hJ⟩
  · rw [if_neg hp]
    exact ⟨wfpids_clearFirstPid hW, pidsDistinct_clearFirstPid hP,
      jidsDistinct_clearFirstPid hJ⟩

theorem freshRun_inv :
    ∀ {t : List Job} {ops : List TableOp} {u : List Job}, FreshRun t ops u →
      WFpids t ∧ PidsDistinct t ∧ JidsDistinct t →
      WFpids u ∧ PidsDistinct u ∧ JidsDistinct u := by
  intro t ops u h
  induction h with
  | nil => exact id
  | reg t2 u2 p s c ops2 hfresh _ ih =>
    intro hi
    obtain ⟨hW, hP, hJ⟩ := hi
    exact ih (inv1_addjob hW hP hJ hfresh)
  | rem t2 u2 p ops2 _ ih =>
    intro hi
    obtain ⟨hW, hP, hJ⟩ := hi
    exact ih (inv1_deletejob hW hP hJ)

theorem smallestUnused_of_succ {t : List Job} {p : Int} {s : JState} {c : String}
    (hW : WFpids t) (hsucc : (addjob t p s c).2 = true) : SmallestUnused t := by
  rcases addjob_succ hsucc with ⟨_, hf, _, _⟩
  refine ⟨(freejid_bounds hf).1, ?_, ?_⟩
  · intro j hj _
    exact freejid_not_taken hf j hj
  · intro m h1 h2
    rcases freejid_smallest hf m h1 h2 with ⟨j, hj, hj0, hje⟩
    refine ⟨j, hj, ?_, hje⟩
    intro hp0
    exact hj0 (((hW j hj).2).mp hp0)

/-- C1 (amended): along every register/remove sequence from the initialized
table in which each registered pid is fresh (not the pid of a live job at
that moment — what `fork` guarantees for the shell), no two live jobs ever
share a job id or a pid, and every successful registration assigns
`freejid`, the smallest positive integer not assigned to any live job, to a
slot holding the registered pid. -/
theorem tsh_C1_amended (ops : List TableOp) (t : List Job)
    (h : FreshRun initjobs ops t) :
    (PidsDistinct t ∧ JidsDistinct t) ∧
    (∀ p s c, (∀ j ∈ t, j.pid ≠ p) → (addjob t p s c).2 = true →
      SmallestUnused t ∧
      (∃ j ∈ (addjob t p s c).1, j.pid = p ∧ j.jid = freejid t) ∧
      PidsDistinct (addjob t p s c).1 ∧ JidsDistinct (addjob t p s c).1) := by
  have hinv := freshRun_inv h ⟨wfpids_initjobs, pidsDistinct_initjobs, jidsDistinct_initjobs⟩
  obtain ⟨hW, hP, hJ⟩ := hinv
  refine ⟨⟨hP, hJ⟩, ?_⟩
  intro p s c hfresh hsucc
  rcases addjob_succ hsucc with ⟨hp1, hf, heq, hfill⟩
  refine ⟨smallestUnused_of_succ hW hsucc, ?_, ?_⟩
  · rw [heq]
    exact ⟨_, fill_mem hfill, rfl, rfl⟩
  · have h3 := @inv1_addjob t p s c hW hP hJ hfresh
    exact ⟨h3.2.1, h3.2.2⟩

/-- Counterexample for C1 as stated: registering the same pid twice (two
register operations, both successful, well within capacity) yields two live
slots sharing pid 1 — the claim quantifies over all register/remove
sequences and demands that no two live jobs ever share a pid. -/
theorem tsh_C1_counterexample :
    (addjob initjobs 1 JState.bg "a").2 = true ∧
    (addjob (addjob initjobs 1 JState.bg "a").1 1 JState.bg "b").2 = true ∧
    (runOps initjobs [TableOp.reg 1 JState.bg "a", TableOp.reg 1 JState.bg "b"])[0]? =
      some { pid := 1, jid := 1, state := JState.bg, cmdline := "a" } ∧
    (runOps initjobs [TableOp.reg 1 JState.bg "a", TableOp.reg 1 JState.bg "b"])[1]? =
      some { pid := 1, jid := 2, state := JState.bg, cmdline := "b" } := by
  refine ⟨by decide, by decide, by decide, by decide⟩

/-- Witness for C1 on the one-step fresh run registering pid 5, followed by
a successful fresh registration of pid 6. -/
theorem tsh_C1_witness :
    (PidsDistinct (addjob initjobs 5 JState.bg "a").1 ∧
     JidsDistinct (addjob initjobs 5 JState.bg "a").1) ∧
    (SmallestUnused (addjob initjobs 5 JState.bg "a").1 ∧
     (∃ j ∈ (addjob (addjob initjobs 5 JState.bg "a").1 6 JState.bg "b").1,
        j.pid = 6 ∧ j.jid = freejid (addjob initjobs 5 JState.bg "a").1) ∧
     PidsDistinct (addjob (addjob initjobs 5 JState.bg "a").1 6 JState.bg "b").1 ∧
     JidsDistinct (addjob (addjob initjobs 5 JState.bg "a").1 6 JState.bg "b").1) := by
  have h : FreshRun initjobs [TableOp.reg 5 JState.bg "a"]
      (addjob initjobs 5 JState.bg "a").1 :=
    FreshRun.reg initjobs (addjob initjobs 5 JState.bg "a").1 5 JState.bg "a" []
      (by decide) (FreshRun.nil (addjob initjobs 5 JState.bg "a").1)
  have h2 := tsh_C1_amended [TableOp.reg 5 JState.bg "a"]
    (addjob initjobs 5 JState.bg "a").1 h
  exact ⟨h2.1, h2.2 6 JState.bg "b" (by decide) (by decide)⟩

/-! ### Claim C2: at most one foreground slot in every reachable state -/

theorem wfpids_deletejob {t : List Job} {p : Int} (hW : WFpids t) :
    WFpids (deletejob t p).1 := by
  rw [deletejob]
  by_cases hp : p < 1
  · rw [if_pos hp]; exact hW
  · rw [if_neg hp]; exact wfpids_clearFirstPid hW

theorem pidsDistinct_deletejob {t : List Job} {p : Int} (hP : PidsDistinct t) :
    PidsDistinct (deletejob t p).1 := by
  rw [deletejob]
  by_cases hp : p < 1
  · rw [if_pos hp]; exact hP
  · rw [if_neg hp]; exact pidsDistinct_clearFirstPid hP

theorem noFG_deletejob {t : List Job} {p : Int} (hN : NoFG t) :
    NoFG (deletejob t p).1 := by
  rw [deletejob]
  by_cases hp : p < 1
  · rw [if_pos hp]; exact hN
  · rw [if_neg hp]; exact noFG_clearFirstPid hN

theorem fgonly_deletejob {t : List Job} {p q : Int} (hF : FGonly t q) :
    FGonly (deletejob t p).1 q := by
  rw [deletejob]
  by_cases hp : p < 1
  · rw [if_pos hp]; exact hF
  · rw [if_neg hp]; exact fgonly_clearFirstPid hF

theorem wfpids_setJobStateByPid {t : List Job} {p : Int} {s : JState}
    (hW : WFpids t) : WFpids (setJobStateByPid t p s) := by
  rw [setJobStateByPid]
  by_cases hp : p < 1
  · rw [if_pos hp]; exact hW
  · rw [if_neg hp]; exact wfpids_setStateFirstPid hW

theorem pidsDistinct_setJobStateByPid {t : List Job} {p : Int} {s : JState}
    (hP : PidsDistinct t) : PidsDistinct (setJobStateByPid t p s) := by
  rw [setJobStateByPid]
  by_cases hp : p < 1
  · rw [if_pos hp]; exact hP
  · rw [if_neg hp]; exact pidsDistinct_setStateFirstPid hP

theorem noFG_setJobStateByPid {t : List Job} {p : Int} {s : JState}
    (hs : s ≠ JState.fg) (hN : NoFG t) : NoFG (setJobStateByPid t p s) := by
  rw [setJobStateByPid]
  by_cases hp : p < 1
  · rw [if_pos hp]; exact hN
  · rw [if_neg hp]; exact noFG_setStateFirstPid hs hN

theorem fgonly_setJobStateByPid {t : List Job} {p q : Int} {s : JState}
    (hs : s ≠ JState.fg) (hF : FGonly t q) : FGonly (setJobStateByPid t p s) q := by
  rw [setJobStateByPid]
  by_cases hp : p < 1
  · rw [if_pos hp]; exact hF
  · rw [if_neg hp]; exact fgonly_setStateFirstPid hs hF

theorem chldStep_fst_cases (t : List Job) (p : Int) (w : WStatus) :
    (chldStep t p w).1 = t ∨
    (chldStep t p w).1 = (deletejob t p).1 ∨
    (chldStep t p w).1 = setJobStateByPid t p JState.st ∨
    (chldStep t p w).1 = setJobStateByPid t p JState.bg := by
  rw [chldStep]
  cases hg : getjobpid t p with
  | none => exact Or.inl rfl
  | some job =>
    cases w with
    | exited code => exact Or.inr (Or.inl rfl)
    | signaled sg => exact Or.inr (Or.inl rfl)
    | stopped sg => exact Or.inr (Or.inr (Or.inl rfl))
    | continued => exact Or.inr (Or.inr (Or.inr rfl))

theorem inv2_chld {t : List Job} {ph : Phase} {p : Int} {w : WStatus}
    (h : Inv2 { jobs := t, phase := ph }) :
    Inv2 { jobs := (chldStep t p w).1, phase := ph } := by
  rcases chldStep_fst_cases t p w with he | he | he | he <;> rw [he] <;>
    cases ph with
    | prompt =>
      obtain ⟨hW, hP, hN⟩ := h
      first
        | exact ⟨hW, hP, hN⟩
        | exact ⟨wfpids_deletejob hW, pidsDistinct_deletejob hP, noFG_deletejob hN⟩
        | exact ⟨wfpids_setJobStateByPid hW, pidsDistinct_setJobStateByPid hP,
            noFG_setJobStateByPid (fun hc => JState.noConfusion hc) hN⟩
    | waiting q =>
      obtain ⟨hW, hP, hq, hF⟩ := h
      first
        | exact ⟨hW, hP, hq, hF⟩
        | exact ⟨wfpids_deletejob hW, pidsDistinct_deletejob hP, hq, fgonly_deletejob hF⟩
        | exact ⟨wfpids_setJobStateByPid hW, pidsDistinct_setJobStateByPid hP, hq,
            fgonly_setJobStateByPid (fun hc => JState.noConfusion hc) hF⟩

theorem inv2_tstp {t : List Job} {ph : Phase}
    (h : Inv2 { jobs := t, phase := ph }) :
    Inv2 { jobs := sigtstpMut t, phase := ph } := by
  rw [sigtstpMut]
  cases hb : (fgpid t != 0) with
  | false => simpa using h
  | true =>
    simp only [if_true]
    cases ph with
    | prompt =>
      obtain ⟨hW, hP, hN⟩ := h
      exact ⟨wfpids_setJobStateByPid hW, pidsDistinct_setJobStateByPid hP,
        noFG_setJobStateByPid (fun hc => JState.noConfusion hc) hN⟩
    | waiting q =>
      obtain ⟨hW, hP, hq, hF⟩ := h
      exact ⟨wfpids_setJobStateByPid hW, pidsDistinct_setJobStateByPid hP, hq,
        fgonly_setJobStateByPid (fun hc => JState.noConfusion hc) hF⟩

theorem noFG_addjob {t : List Job} {p : Int} {s : JState} {c : String}
    (hs : s ≠ JState.fg) (hN : NoFG t) : NoFG (addjob t p s c).1 := by
  cases hsucc : (addjob t p s c).2 with
  | false => rw [addjob_not_succ hsucc]; exact hN
  | true =>
    rcases addjob_succ hsucc with ⟨_, _, heq, _⟩
    rw [heq]
    intro b hb
    rcases mem_fillFirstFree hb with rfl | h3
    · exact hs
    · exact hN b h3

theorem fgonly_addjob_fg {t : List Job} {p : Int} {c : String}
    (hN : NoFG t) : FGonly (addjob t p JState.fg c).1 p := by
  cases hsucc : (addjob t p JState.fg c).2 with
  | false =>
    rw [addjob_not_succ hsucc]
    intro b hb hbfg
    exact absurd hbfg (hN b hb)
  | true =>
    rcases addjob_succ hsucc with ⟨_, _, heq, _⟩
    rw [heq]
    intro b hb hbfg
    rcases mem_fillFirstFree hb with rfl | h3
    · rfl
    · exact absurd hbfg (hN b h3)

theorem inv2_launchBg {t : List Job} {p : Int} {c : String}
    (h : Inv2 { jobs := t, phase := Phase.prompt }) (hp : 1 ≤ p)
    (hfresh : ∀ j ∈ t, j.pid ≠ p) :
    Inv2 { jobs := (addjob t p JState.bg c).1, phase := Phase.prompt } := by
  obtain ⟨hW, hP, hN⟩ := h
  have hJ : True := trivial
  refine ⟨?_, ?_, ?_⟩
  · cases hsucc : (addjob t p JState.bg c).2 with
    | false => rw [addjob_not_succ hsucc]; exact hW
    | true =>
      rcases addjob_succ hsucc with ⟨_, hf, heq, _⟩
      rw [heq]
      refine wfpids_fillFirstFree hW ⟨?_, ?_⟩
      · show (0 : Int) ≤ p
        omega
      · constructor
        · intro h2
          exact absurd (show p = 0 from h2) (by omega)
        · intro h2
          exact absurd (show freejid t = 0 from h2) hf
  · cases hsucc : (addjob t p JState.bg c).2 with
    | false => rw [addjob_not_succ hsucc]; exact hP
    | true =>
      rcases addjob_succ hsucc with ⟨_, _, heq, _⟩
      rw [heq]
      exact pidsDistinct_fillFirstFree hP hfresh
  · exact noFG_addjob (fun hc => JState.noConfusion hc) hN

theorem inv2_launchFg {t : List Job} {p : Int} {c : String}
    (h : Inv2 { jobs := t, phase := Phase.prompt }) (hp : 1 ≤ p)
    (hfresh : ∀ j ∈ t, j.pid ≠ p) :
    Inv2 { jobs := (addjob t p JState.fg c).1, phase := Phase.waiting p } := by
  obtain ⟨hW, hP, hN⟩ := h
  refine ⟨?_, ?_, hp, fgonly_addjob_fg hN⟩
  · cases hsucc : (addjob t p JState.fg c).2 with
    | false => rw [addjob_not_succ hsucc]; exact hW
    | true =>
      rcases addjob_succ hsucc with ⟨_, hf, heq, _⟩
      rw [heq]
      refine wfpids_fillFirstFree hW ⟨?_, ?_⟩
      · show (0 : Int) ≤ p
        omega
      · constructor
        · intro h2
          exact absurd (show p = 0 from h2) (by omega)
        · intro h2
          exact absurd (show freejid t = 0 from h2) hf
  · cases hsucc : (addjob t p JState.fg c).2 with
    | false => rw [addjob_not_succ hsucc]; exact hP
    | true =>
      rcases addjob_succ hsucc with ⟨_, _, heq, _⟩
      rw [heq]
      exact pidsDistinct_fillFirstFree hP hfresh

theorem inv2_waitfgExit {t : List Job} {p : Int} {w : WStatus}
    (h : Inv2 { jobs := t, phase := Phase.waiting p }) (hw : w ≠ WStatus.continued) :
    Inv2 { jobs := waitfgExit t p w, phase := Phase.prompt } := by
  obtain ⟨hW, hP, hp, hF⟩ := h
  rw [waitfgExit.eq_def]
  cases hg : getjobpid t p with
  | none =>
    refine ⟨hW, hP, ?_⟩
    intro b hb hbfg
    exact getjobpid_eq_none hg hp b hb (hF b hb hbfg)
  | some job =>
    have hp0 : p ≠ 0 := by omega
    cases w with
    | continued => exact absurd rfl hw
    | stopped sg =>
      refine ⟨wfpids_setJobStateByPid hW, pidsDistinct_setJobStateByPid hP, ?_⟩
      rw [setJobStateByPid, if_neg (by omega)]
      exact noFG_setStateFirstPid_st hp0 hP hF
    | signaled sg =>
      refine ⟨wfpids_deletejob hW, pidsDistinct_deletejob hP, ?_⟩
      rw [deletejob, if_neg (by omega)]
      exact noFG_clearFirstPid_of_fgonly hp0 hP hF
    | exited code =>
      refine ⟨wfpids_deletejob hW, pidsDistinct_deletejob hP, ?_⟩
      rw [deletejob, if_neg (by omega)]
      exact noFG_clearFirstPid_of_fgonly hp0 hP hF

theorem inv2_bgfgFinish_jid {t : List Job} {cmd : String} {job : Job} {jid : Int}
    (hW : WFpids t) (hP : PidsDistinct t) (hN : NoFG t)
    (hfind : findJid jid t = some job) (hjid : 1 ≤ jid) :
    Inv2 { jobs := (bgfgFinish t cmd job true jid).1,
           phase := bgfgPhase (bgfgFinish t cmd job true jid).2 } := by
  rcases findJid_eq_some hfind with ⟨hmem, hjeq⟩
  rw [bgfgFinish]
  by_cases hbg : (cmd == "bg") = true
  · rw [if_pos hbg]
    exact ⟨wfpids_setStateFirstJid hW, pidsDistinct_setStateFirstJid hP,
      noFG_setStateFirstJid (fun hc => JState.noConfusion hc) hN⟩
  · rw [if_neg hbg]
    by_cases hfg : (cmd == "fg") = true
    · rw [if_pos hfg]
      have hpid1 : 1 ≤ job.pid := by
        rcases hW job hmem with ⟨hge, hiff⟩
        have : job.pid ≠ 0 := by
          intro h0
          have := hiff.mp h0
          omega
        omega
      refine ⟨wfpids_setStateFirstJid hW, pidsDistinct_setStateFirstJid hP, hpid1, ?_⟩
      intro b hb hbfg
      rcases mem_setStateFirstJid_of_find hfind hb with h3 | rfl
      · exact absurd hbfg (hN b h3)
      · rfl
    · rw [if_neg hfg]
      exact ⟨hW, hP, hN⟩

theorem inv2_bgfgFinish_pid {t : List Job} {cmd : String} {job : Job} {p : Int}
    (hW : WFpids t) (hP : PidsDistinct t) (hN : NoFG t)
    (hfind : findPid p t = some job) (hp : 1 ≤ p) :
    Inv2 { jobs := (bgfgFinish t cmd job false p).1,
           phase := bgfgPhase (bgfgFinish t cmd job false p).2 } := by
  rcases findPid_eq_some hfind with ⟨hmem, hpeq⟩
  rw [bgfgFinish]
  by_cases hbg : (cmd == "bg") = true
  · rw [if_pos hbg]
    exact ⟨wfpids_setStateFirstPid hW, pidsDistinct_setStateFirstPid hP,
      noFG_setStateFirstPid (fun hc => JState.noConfusion hc) hN⟩
  · rw [if_neg hbg]
    by_cases hfg : (cmd == "fg") = true
    · rw [if_pos hfg]
      have hpid1 : 1 ≤ job.pid := by rw [hpeq]; exact hp
      refine ⟨wfpids_setStateFirstPid hW, pidsDistinct_setStateFirstPid hP, hpid1, ?_⟩
      intro b hb hbfg
      rcases mem_setStateFirstPid_of_find hfind hb with h3 | rfl
      · exact absurd hbfg (hN b h3)
      · rfl
    · rw [if_neg hfg]
      exact ⟨hW, hP, hN⟩

theorem inv2_bgfg {t : List Job} {cmd : String} {arg? : Option String}
    (h : Inv2 { jobs := t, phase := Phase.prompt }) :
    Inv2 { jobs := (do_bgfg t cmd arg?).1,
           phase := bgfgPhase (do_bgfg t cmd arg?).2 } := by
  obtain ⟨hW, hP, hN⟩ := h
  cases arg? with
  | none => exact ⟨hW, hP, hN⟩
  | some arg =>
    by_cases hpc : (arg.data.head? == some '%') = true
    · obtain ⟨rest, hrest⟩ : ∃ rest, arg.data = '%' :: rest := by
        cases hd : arg.data with
        | nil => rw [hd] at hpc; simp at hpc
        | cons cHead ctl =>
          rw [hd] at hpc
          simp only [List.head?_cons, beq_iff_eq, Option.some.injEq] at hpc
          exact ⟨ctl, by rw [hpc]⟩
      rw [do_bgfg_percent hrest]
      by_cases hj0 : atoi rest ≤ 0
      · rw [if_pos hj0]; exact ⟨hW, hP, hN⟩
      · rw [if_neg hj0]
        cases hg : getjobjid t (atoi rest) with
        | none => exact ⟨hW, hP, hN⟩
        | some job =>
          have hfind : findJid (atoi rest) t = some job := by
            rw [getjobjid, if_neg (by omega)] at hg
            exact hg
          exact inv2_bgfgFinish_jid hW hP hN hfind (by omega)
    · rw [do_bgfg_bare (by simpa using hpc)]
      by_cases hp0 : atoi arg.data ≤ 0
      · rw [if_pos hp0]; exact ⟨hW, hP, hN⟩
      · rw [if_neg hp0]
        cases hg : getjobpid t (atoi arg.data) with
        | none => exact ⟨hW, hP, hN⟩
        | some job =>
          have hfind : findPid (atoi arg.data) t = some job := by
            rw [getjobpid, if_neg (by omega)] at hg
            exact hg
          exact inv2_bgfgFinish_pid hW hP hN hfind (by omega)

theorem reach_inv2 : ∀ {st : ShellState}, Reach st → Inv2 st := by
  intro st h
  induction h with
  | init => exact ⟨wfpids_initjobs, pidsDistinct_initjobs, noFG_initjobs⟩
  | launchBg t p c _ hp hfresh ih => exact inv2_launchBg ih hp hfresh
  | launchFg t p c _ hp hfresh ih => exact inv2_launchFg ih hp hfresh
  | bgfg t cmd arg? _ ih => exact inv2_bgfg ih
  | chld t ph p w _ ih => exact inv2_chld ih
  | tstp t ph _ ih => exact inv2_tstp ih
  | intr t ph _ ih => exact ih
  | waitDone t p w _ hw ih => exact inv2_waitfgExit ih hw

/-- C2: in every state of the job table reachable through the supervisor's
operations — launch registration, the bg/fg executor's state changes, the
signal handlers' mutations, and the foreground waiter's exits — at most one
slot is in the Foreground state. -/
theorem tsh_C2_at_most_one_fg (st : ShellState) (h : Reach st) :
    fgCount st.jobs ≤ 1 := by
  have hi := reach_inv2 h
  cases st with
  | mk jobs phase =>
    cases phase with
    | prompt =>
      obtain ⟨_, _, hN⟩ := hi
      rw [fgCount_eq_zero_of_noFG hN]
      omega
    | waiting p =>
      obtain ⟨_, hP, hp, hF⟩ := hi
      exact fgCount_le_one_of_fgonly (by omega) hP hF

/-- Witness for C2: the state reached by registering a foreground job with
pid 5 from the initial table. -/
theorem tsh_C2_witness :
    fgCount (addjob initjobs 5 JState.fg "x").1 ≤ 1 :=
  tsh_C2_at_most_one_fg
    { jobs := (addjob initjobs 5 JState.fg "x").1, phase := Phase.waiting 5 }
    (Reach.launchFg initjobs 5 "x" Reach.init (by omega) (by decide))

end Tsh
